import Mathlib

/-!
Verification of the `scheduler` crate's core: the `Job` data model
(`src/job.rs`), the heap-backed `QueueManager` (`src/queue.rs`), the
`Worker` registry (`src/worker.rs`) and the `PersistenceManager` loader
(`src/persistence_manager.rs`), as a shallow embedding in Lean.

The Rust `BinaryHeap<Job>` is modelled as the list of its elements kept
sorted with the maximum (by `Job`'s `Ord`) first, which is exactly the
order in which `pop` observes it; `BinaryHeap::push` becomes an ordered
insert, `BinaryHeap::from` a fold of such inserts, and `Vec::sort` an
ascending ordered insertion sort.  Machine integers (`i64`, `u8`, `u32`)
are modelled as `Int` and `Nat`: none of the embedded operations can
overflow (`retry_count + 1` is only computed under `retry_count <
max_retries ≤ u32::MAX`).  `Uuid` is an opaque identity compared only
for equality, modelled as `Nat`.  `SystemTime::now` / `Uuid::new_v4`
and the file system are nondeterministic inputs, passed as parameters.
-/

/-- `Status` from `src/job.rs`. -/
inductive Status where
  | Pending
  | Running
  | Success
  | Failed
deriving DecidableEq, Repr

/-- `Job` from `src/job.rs`; `id : Uuid` is modelled as an opaque `Nat`. -/
structure Job where
  id : Nat
  execution_time : Int
  priority : Nat
  description : String
  function : String
  status : Status
  max_retries : Nat
  retry_count : Nat
deriving DecidableEq, Repr

/-- Rust's `i64::cmp` (`Ord` on integers). -/
def intCmp (x y : Int) : Ordering :=
  if x < y then .lt else if x = y then .eq else .gt

/-- Rust's `u8::cmp` / `u32::cmp` (`Ord` on unsigned integers). -/
def natCmp (x y : Nat) : Ordering :=
  if x < y then .lt else if x = y then .eq else .gt

/-- `impl Ord for Job` (src/job.rs:103-110):
`other.execution_time.cmp(&self.execution_time).then(self.priority.cmp(&other.priority))`. -/
def Job.cmp (self other : Job) : Ordering :=
  (intCmp other.execution_time self.execution_time).then
    (natCmp self.priority other.priority)

/-- `a` is no smaller than `b` in `Job`'s `Ord`: in a max-heap, `a` pops
no later than `b`.  The heap model keeps its list sorted by this relation. -/
def Job.heapLE (a b : Job) : Prop := Job.cmp a b ≠ Ordering.lt

instance : DecidableRel Job.heapLE :=
  fun a b => (inferInstance : Decidable (Job.cmp a b ≠ Ordering.lt))

/-- `BinaryHeap::push`: insert into the descending-sorted element list.
Where the new element ties with a stored one Rust leaves the pop order
unspecified; this model places the new element first. -/
def heapPush (j : Job) : List Job → List Job
  | [] => [j]
  | x :: xs =>
    if Job.cmp j x = Ordering.lt then x :: heapPush j xs else j :: x :: xs

/-- `BinaryHeap::from` / rebuilding a heap from a drained vector. -/
def heapify (l : List Job) : List Job := l.foldr heapPush []

/-- `QueueManager` from `src/queue.rs`.  The `snapshot_tx` persistence
channel only mirrors the contents outward (`notify_persistence` sends a
clone-preserving snapshot), so the state is the heap itself. -/
structure QueueManager where
  heap : List Job
deriving DecidableEq, Repr

/-- `QueueManager::new`. -/
def QueueManager.new : QueueManager := ⟨[]⟩

/-- `QueueManager::push` (src/queue.rs:34-37). -/
def QueueManager.push (q : QueueManager) (j : Job) : QueueManager :=
  ⟨heapPush j q.heap⟩

/-- `QueueManager::pop` (src/queue.rs:39-45): `BinaryHeap::pop` returns
the maximum element. -/
def QueueManager.pop (q : QueueManager) : Option Job × QueueManager :=
  match q.heap with
  | [] => (none, q)
  | x :: xs => (some x, ⟨xs⟩)

/-- `QueueManager::peek` (src/queue.rs:64-66). -/
def QueueManager.peek (q : QueueManager) : Option Job := q.heap.head?

/-- `QueueManager::len`. -/
def QueueManager.len (q : QueueManager) : Nat := q.heap.length

/-- `QueueManager::is_empty`. -/
def QueueManager.isEmpty (q : QueueManager) : Bool := q.heap.isEmpty

/-- The loop of `QueueManager::pop_ready` (src/queue.rs:68-81): while the
peeked job has `execution_time ≤ now`, pop it into `ready`; stop at the
first job whose time is in the future.  Returns (ready, remaining heap). -/
def popReadyList (now : Int) : List Job → List Job × List Job
  | [] => ([], [])
  | x :: xs =>
    if x.execution_time ≤ now then
      let p := popReadyList now xs
      (x :: p.1, p.2)
    else
      ([], x :: xs)

/-- `QueueManager::pop_ready` (src/queue.rs:68-81). -/
def QueueManager.pop_ready (q : QueueManager) (now : Int) :
    List Job × QueueManager :=
  let p := popReadyList now q.heap
  (p.1, ⟨p.2⟩)

/-- `all.iter().position(|j| j.id == id)` followed by `all.remove(i)`:
find the first job with the given id, returning it and the rest. -/
def removeFirst (id : Nat) : List Job → Option (Job × List Job)
  | [] => none
  | x :: xs =>
    if x.id == id then some (x, xs)
    else
      match removeFirst id xs with
      | some (j, rest) => some (j, x :: rest)
      | none => none

/-- `QueueManager::remove` (src/queue.rs:47-62): drain the heap, remove
the first job with the given id if present, rebuild the heap. -/
def QueueManager.remove (q : QueueManager) (id : Nat) :
    Option Job × QueueManager :=
  match removeFirst id q.heap with
  | some (j, rest) => (some j, ⟨heapify rest⟩)
  | none => (none, ⟨heapify q.heap⟩)

/-- `all.iter_mut().find(|j| j.id == id)` followed by the in-place status
write: returns the list with the first matching job's status replaced,
or `none` when no job matches. -/
def setStatusFirst (id : Nat) (s : Status) : List Job → Option (List Job)
  | [] => none
  | x :: xs =>
    if x.id == id then some ({ x with status := s } :: xs)
    else (setStatusFirst id s xs).map (x :: ·)

/-- `QueueManager::update_status` (src/queue.rs:83-98). -/
def QueueManager.update_status (q : QueueManager) (id : Nat) (s : Status) :
    Bool × QueueManager :=
  match setStatusFirst id s q.heap with
  | some l => (true, ⟨heapify l⟩)
  | none => (false, ⟨heapify q.heap⟩)

/-- `Vec::sort` for `Vec<Job>` sorts ascending by `Job`'s `Ord`:
insert after every strictly greater element. -/
def sortedInsertAsc (j : Job) : List Job → List Job
  | [] => [j]
  | x :: xs =>
    if Job.cmp j x = Ordering.gt then x :: sortedInsertAsc j xs
    else j :: x :: xs

/-- `v.sort()` on the drained vector in `snapshot`. -/
def sortAsc (l : List Job) : List Job := l.foldr sortedInsertAsc []

/-- `QueueManager::snapshot` (src/queue.rs:109-116): drain into `v`,
`v.sort()`, then push a clone of each element back into the heap;
returns `v` and leaves the rebuilt store. -/
def QueueManager.snapshot (q : QueueManager) : List Job × QueueManager :=
  let v := sortAsc q.heap
  (v, ⟨v.foldl (fun h j => heapPush j h) []⟩)

/-- `QueueManager::load_from_vec` (src/queue.rs:23-25). -/
def QueueManager.load_from_vec (_q : QueueManager) (jobs : List Job) :
    QueueManager :=
  ⟨heapify jobs⟩

/-- `Job::new` (src/job.rs:35-57).  `Self::now()` and `Uuid::new_v4()`
are environment inputs, passed as the `now` and `id` parameters. -/
def Job.new (now : Int) (id : Nat) (execution_time : Int) (priority : Nat)
    (description function : String) (max_retries : Nat) : Except String Job :=
  if execution_time < now then
    .error s!"execution_time {execution_time} is in the past"
  else
    .ok { id := id
          execution_time := execution_time
          priority := priority
          description := description
          function := function
          status := .Pending
          max_retries := max_retries
          retry_count := 0 }

/-- `Job::fail_and_retry` (src/job.rs:69-86): returns the mutated job and
the boolean the method returns (`true` = will retry). -/
def Job.fail_and_retry (j : Job) : Job × Bool :=
  if j.retry_count < j.max_retries then
    ({ j with retry_count := j.retry_count + 1, status := .Pending }, true)
  else
    ({ j with status := .Failed }, false)

/-- `fail_and_retry` applied `n` times in a row (discarding the returned
booleans). -/
def iterFail (j : Job) : Nat → Job
  | 0 => j
  | n + 1 => iterFail j.fail_and_retry.1 n

/-- `Worker` from `src/worker.rs`: the registry maps names to `fn()`
function pointers; the pointers are opaque (`type JobFn = fn()`), so the
registry is modelled by the set of registered names. -/
structure Worker where
  registry : List String

/-- `Worker::new`. -/
def Worker.new : Worker := ⟨[]⟩

/-- `Worker::register` (src/worker.rs:24-26): `HashMap::insert`. -/
def Worker.register (w : Worker) (name : String) : Worker :=
  ⟨name :: w.registry⟩

/-- `Worker::run_job` (src/worker.rs:29-36): looks the name up; when
found it prints and calls the opaque `fn()`, otherwise it prints an
error.  The job is taken by shared reference (`&Job`), so it is returned
unchanged; the boolean records whether a callable was invoked. -/
def Worker.run_job (w : Worker) (j : Job) : Job × Bool :=
  if w.registry.contains j.function then (j, true) else (j, false)

/-- `PersistenceManager::load_jobs` (src/persistence_manager.rs:46-58).
`fs::read_to_string` and `serde_json::from_str::<Vec<Job>>` are
environment inputs: `readData` is the read result and `parse` the JSON
decoder; each `let Ok(..) = .. else return Vec::new()` becomes a match. -/
def PersistenceManager.load_jobs (readData : Except String String)
    (parse : String → Except String (List Job)) : List Job :=
  match readData with
  | .error _ => []
  | .ok data =>
    match parse data with
    | .error _ => []
    | .ok jobs => jobs

/-- Popping one job at a time until the store is empty (`fuel` bounds the
recursion; `popAll` supplies the store's size). -/
def popAllFuel : Nat → QueueManager → List Job
  | 0, _ => []
  | n + 1, q =>
    match q.pop with
    | (some j, q') => j :: popAllFuel n q'
    | (none, _) => []

/-- All jobs obtained from a store by repeated `pop`. -/
def popAll (q : QueueManager) : List Job := popAllFuel q.len q

/-- Inserting a sequence of jobs via `push` into a fresh store. -/
def pushAll (js : List Job) : QueueManager :=
  js.foldl QueueManager.push QueueManager.new

/-! ### The heap order -/

theorem intCmp_eq_lt {x y : Int} : intCmp x y = Ordering.lt ↔ x < y := by
  unfold intCmp
  split
  · simp_all
  · split <;> simp_all

theorem intCmp_eq_gt {x y : Int} : intCmp x y = Ordering.gt ↔ y < x := by
  unfold intCmp
  split
  · simp_all
    omega
  · split <;> simp_all
    omega

theorem intCmp_eq_eq {x y : Int} : intCmp x y = Ordering.eq ↔ x = y := by
  unfold intCmp
  split
  · simp_all
    omega
  · split <;> simp_all

theorem natCmp_eq_lt {x y : Nat} : natCmp x y = Ordering.lt ↔ x < y := by
  unfold natCmp
  split
  · simp_all
  · split <;> simp_all

theorem natCmp_eq_gt {x y : Nat} : natCmp x y = Ordering.gt ↔ y < x := by
  unfold natCmp
  split
  · simp_all
    omega
  · split <;> simp_all
    omega

theorem Job.cmp_eq_lt {a b : Job} :
    Job.cmp a b = Ordering.lt ↔
      b.execution_time < a.execution_time ∨
        (b.execution_time = a.execution_time ∧ a.priority < b.priority) := by
  unfold Job.cmp Ordering.then
  rcases h : intCmp b.execution_time a.execution_time with _ | _ | _
  · rw [intCmp_eq_lt] at h
    simp [h]
  · rw [intCmp_eq_eq] at h
    simp [h, natCmp_eq_lt]
  · rw [intCmp_eq_gt] at h
    simp
    omega

theorem Job.cmp_eq_gt {a b : Job} :
    Job.cmp a b = Ordering.gt ↔
      a.execution_time < b.execution_time ∨
        (a.execution_time = b.execution_time ∧ b.priority < a.priority) := by
  unfold Job.cmp Ordering.then
  rcases h : intCmp b.execution_time a.execution_time with _ | _ | _
  · rw [intCmp_eq_lt] at h
    simp
    omega
  · rw [intCmp_eq_eq] at h
    simp [h, natCmp_eq_gt]
  · rw [intCmp_eq_gt] at h
    simp
    omega

theorem Job.heapLE_iff {a b : Job} :
    a.heapLE b ↔
      a.execution_time ≤ b.execution_time ∧
        (a.execution_time = b.execution_time → b.priority ≤ a.priority) := by
  unfold Job.heapLE
  rw [← not_iff_not, not_not, Job.cmp_eq_lt]
  constructor
  · rintro (h | ⟨h₁, h₂⟩) <;> intro hc
    · omega
    · exact absurd (hc.2 h₁.symm) (by omega)
  · intro hc
    by_cases he : b.execution_time < a.execution_time
    · exact Or.inl he
    · refine Or.inr ⟨?_, ?_⟩ <;> push_neg at hc <;> omega

theorem Job.heapLE_total (a b : Job) : a.heapLE b ∨ b.heapLE a := by
  rw [Job.heapLE_iff, Job.heapLE_iff]
  by_cases h : a.execution_time ≤ b.execution_time
  · by_cases h' : b.execution_time ≤ a.execution_time
    · by_cases hp : b.priority ≤ a.priority
      · exact Or.inl ⟨h, fun _ => hp⟩
      · exact Or.inr ⟨h', fun _ => by omega⟩
    · exact Or.inl ⟨h, fun he => absurd he.ge h'⟩
  · exact Or.inr ⟨by omega, fun he => by omega⟩

theorem Job.heapLE_trans {a b c : Job} (hab : a.heapLE b) (hbc : b.heapLE c) :
    a.heapLE c := by
  rw [Job.heapLE_iff] at *
  obtain ⟨h₁, h₂⟩ := hab
  obtain ⟨h₃, h₄⟩ := hbc
  refine ⟨le_trans h₁ h₃, fun he => ?_⟩
  have e₁ : a.execution_time = b.execution_time := by omega
  have e₂ : b.execution_time = c.execution_time := by omega
  exact le_trans (h₄ e₂) (h₂ e₁)

theorem Job.not_heapLE {a b : Job} (h : ¬ a.heapLE b) : b.heapLE a := by
  rcases Job.heapLE_total a b with h' | h'
  · exact absurd h' h
  · exact h'

/-! ### Heap operations preserve sortedness and contents -/

theorem heapPush_perm (j : Job) (l : List Job) :
    List.Perm (heapPush j l) (j :: l) := by
  induction l with
  | nil => simp [heapPush]
  | cons x xs ih =>
    unfold heapPush
    split
    · exact List.Perm.trans (ih.cons x) (List.Perm.swap _ _ _)
    · exact List.Perm.refl _

theorem mem_heapPush {y j : Job} {l : List Job} :
    y ∈ heapPush j l ↔ y = j ∨ y ∈ l := by
  rw [(heapPush_perm j l).mem_iff]
  simp

theorem heapPush_pairwise {j : Job} {l : List Job}
    (h : l.Pairwise Job.heapLE) : (heapPush j l).Pairwise Job.heapLE := by
  induction l with
  | nil => simp [heapPush]
  | cons x xs ih =>
    rw [List.pairwise_cons] at h
    obtain ⟨hx, hxs⟩ := h
    unfold heapPush
    split
    · rename_i hlt
      rw [List.pairwise_cons]
      refine ⟨fun y hy => ?_, ih hxs⟩
      rw [mem_heapPush] at hy
      rcases hy with rfl | hy
      · exact Job.not_heapLE (by simpa [Job.heapLE] using hlt)
      · exact hx y hy
    · rename_i hnlt
      rw [List.pairwise_cons]
      have hjx : j.heapLE x := hnlt
      refine ⟨fun y hy => ?_, List.pairwise_cons.mpr ⟨hx, hxs⟩⟩
      rcases List.mem_cons.mp hy with rfl | hy
      · exact hjx
      · exact Job.heapLE_trans hjx (hx y hy)

theorem heapify_perm (l : List Job) : List.Perm (heapify l) l := by
  induction l with
  | nil => exact List.Perm.refl _
  | cons x xs ih =>
    have h1 : List.Perm (heapPush x (heapify xs)) (x :: heapify xs) :=
      heapPush_perm x (heapify xs)
    exact List.Perm.trans h1 (ih.cons x)

theorem heapify_pairwise (l : List Job) : (heapify l).Pairwise Job.heapLE := by
  induction l with
  | nil => simp [heapify]
  | cons x xs ih => exact heapPush_pairwise ih

theorem heapPush_of_le {j : Job} {l : List Job}
    (h : ∀ y ∈ l, j.heapLE y) : heapPush j l = j :: l := by
  cases l with
  | nil => rfl
  | cons x xs =>
    unfold heapPush
    rw [if_neg]
    exact h x (by simp)

theorem heapify_of_pairwise {l : List Job} (h : l.Pairwise Job.heapLE) :
    heapify l = l := by
  induction l with
  | nil => rfl
  | cons x xs ih =>
    rw [List.pairwise_cons] at h
    obtain ⟨hx, hxs⟩ := h
    show heapPush x (heapify xs) = x :: xs
    rw [ih hxs]
    exact heapPush_of_le hx

theorem pushAll_go_pairwise (js : List Job) :
    ∀ q : QueueManager, q.heap.Pairwise Job.heapLE →
      (js.foldl QueueManager.push q).heap.Pairwise Job.heapLE := by
  induction js with
  | nil => exact fun q hq => hq
  | cons j js ih =>
    intro q hq
    exact ih (q.push j) (heapPush_pairwise hq)

theorem pushAll_pairwise (js : List Job) :
    (pushAll js).heap.Pairwise Job.heapLE :=
  pushAll_go_pairwise js QueueManager.new (by simp [QueueManager.new])

theorem popAllFuel_heap : ∀ l : List Job, popAllFuel l.length ⟨l⟩ = l
  | [] => rfl
  | x :: xs => by
    show x :: popAllFuel xs.length ⟨xs⟩ = x :: xs
    rw [popAllFuel_heap xs]

theorem popAll_eq (q : QueueManager) : popAll q = q.heap := by
  obtain ⟨l⟩ := q
  exact popAllFuel_heap l

theorem popReadyList_append (now : Int) (l : List Job) :
    (popReadyList now l).1 ++ (popReadyList now l).2 = l := by
  induction l with
  | nil => rfl
  | cons x xs ih =>
    unfold popReadyList
    split
    · simpa using ih
    · rfl

theorem popReadyList_fst_le (now : Int) (l : List Job) :
    ∀ j ∈ (popReadyList now l).1, j.execution_time ≤ now := by
  induction l with
  | nil => simp [popReadyList]
  | cons x xs ih =>
    unfold popReadyList
    split
    · rename_i h
      intro j hj
      rcases List.mem_cons.mp hj with rfl | hj
      · exact h
      · exact ih j hj
    · simp

theorem popReadyList_snd_gt (now : Int) {l : List Job}
    (hl : l.Pairwise Job.heapLE) :
    ∀ j ∈ (popReadyList now l).2, now < j.execution_time := by
  induction l with
  | nil => simp [popReadyList]
  | cons x xs ih =>
    rw [List.pairwise_cons] at hl
    obtain ⟨hx, hxs⟩ := hl
    unfold popReadyList
    split
    · exact ih hxs
    · rename_i h
      push_neg at h
      intro j hj
      rcases List.mem_cons.mp hj with rfl | hj
      · exact h
      · have := (Job.heapLE_iff.mp (hx j hj)).1
        omega

theorem popReadyList_fst_pairwise (now : Int) {l : List Job}
    (hl : l.Pairwise Job.heapLE) :
    (popReadyList now l).1.Pairwise Job.heapLE := by
  have hsub : (popReadyList now l).1.Sublist l := by
    conv_rhs => rw [← popReadyList_append now l]
    exact List.sublist_append_left _ _
  exact hl.sublist hsub

/-! ### The ascending sort used by `snapshot` -/

/-- `a` precedes `b` in the ascending (`Vec::sort`) order on jobs. -/
def Job.ascLE (a b : Job) : Prop := Job.cmp a b ≠ Ordering.gt

instance : DecidableRel Job.ascLE :=
  fun a b => (inferInstance : Decidable (Job.cmp a b ≠ Ordering.gt))

theorem Job.ascLE_iff {a b : Job} :
    a.ascLE b ↔
      b.execution_time ≤ a.execution_time ∧
        (a.execution_time = b.execution_time → a.priority ≤ b.priority) := by
  unfold Job.ascLE
  rw [← not_iff_not, not_not, Job.cmp_eq_gt]
  constructor
  · rintro (h | ⟨h₁, h₂⟩) <;> intro hc
    · omega
    · exact absurd (hc.2 h₁) (by omega)
  · intro hc
    by_cases he : a.execution_time < b.execution_time
    · exact Or.inl he
    · refine Or.inr ⟨?_, ?_⟩ <;> push_neg at hc <;> omega

theorem Job.ascLE_total (a b : Job) : a.ascLE b ∨ b.ascLE a := by
  rw [Job.ascLE_iff, Job.ascLE_iff]
  by_cases h : b.execution_time ≤ a.execution_time
  · by_cases h' : a.execution_time ≤ b.execution_time
    · by_cases hp : a.priority ≤ b.priority
      · exact Or.inl ⟨h, fun _ => hp⟩
      · exact Or.inr ⟨h', fun _ => by omega⟩
    · exact Or.inl ⟨h, fun he => by omega⟩
  · exact Or.inr ⟨by omega, fun he => by omega⟩

theorem Job.ascLE_trans {a b c : Job} (hab : a.ascLE b) (hbc : b.ascLE c) :
    a.ascLE c := by
  rw [Job.ascLE_iff] at *
  obtain ⟨h₁, h₂⟩ := hab
  obtain ⟨h₃, h₄⟩ := hbc
  refine ⟨le_trans h₃ h₁, fun he => ?_⟩
  have e₁ : a.execution_time = b.execution_time := by omega
  have e₂ : b.execution_time = c.execution_time := by omega
  exact le_trans (h₂ e₁) (h₄ e₂)

theorem Job.not_ascLE {a b : Job} (h : ¬ a.ascLE b) : b.ascLE a := by
  rcases Job.ascLE_total a b with h' | h'
  · exact absurd h' h
  · exact h'

theorem sortedInsertAsc_perm (j : Job) (l : List Job) :
    List.Perm (sortedInsertAsc j l) (j :: l) := by
  induction l with
  | nil => simp [sortedInsertAsc]
  | cons x xs ih =>
    unfold sortedInsertAsc
    split
    · exact List.Perm.trans (ih.cons x) (List.Perm.swap _ _ _)
    · exact List.Perm.refl _

theorem mem_sortedInsertAsc {y j : Job} {l : List Job} :
    y ∈ sortedInsertAsc j l ↔ y = j ∨ y ∈ l := by
  rw [(sortedInsertAsc_perm j l).mem_iff]
  simp

theorem sortedInsertAsc_pairwise {j : Job} {l : List Job}
    (h : l.Pairwise Job.ascLE) : (sortedInsertAsc j l).Pairwise Job.ascLE := by
  induction l with
  | nil => simp [sortedInsertAsc]
  | cons x xs ih =>
    rw [List.pairwise_cons] at h
    obtain ⟨hx, hxs⟩ := h
    unfold sortedInsertAsc
    split
    · rename_i hgt
      rw [List.pairwise_cons]
      refine ⟨fun y hy => ?_, ih hxs⟩
      rw [mem_sortedInsertAsc] at hy
      rcases hy with rfl | hy
      · exact Job.not_ascLE (by simpa [Job.ascLE] using hgt)
      · exact hx y hy
    · rename_i hngt
      rw [List.pairwise_cons]
      have hjx : j.ascLE x := hngt
      refine ⟨fun y hy => ?_, List.pairwise_cons.mpr ⟨hx, hxs⟩⟩
      rcases List.mem_cons.mp hy with rfl | hy
      · exact hjx
      · exact Job.ascLE_trans hjx (hx y hy)

theorem sortAsc_perm (l : List Job) : List.Perm (sortAsc l) l := by
  induction l with
  | nil => exact List.Perm.refl _
  | cons x xs ih =>
    have h1 : List.Perm (sortedInsertAsc x (sortAsc xs)) (x :: sortAsc xs) :=
      sortedInsertAsc_perm x (sortAsc xs)
    exact List.Perm.trans h1 (ih.cons x)

theorem sortAsc_pairwise (l : List Job) : (sortAsc l).Pairwise Job.ascLE := by
  induction l with
  | nil => simp [sortAsc]
  | cons x xs ih => exact sortedInsertAsc_pairwise ih

theorem foldlPush_perm (v : List Job) :
    ∀ acc : List Job,
      List.Perm (v.foldl (fun h j => heapPush j h) acc) (acc ++ v) := by
  induction v with
  | nil => intro acc; simp
  | cons j v ih =>
    intro acc
    have h1 := ih (heapPush j acc)
    have h2 : List.Perm (heapPush j acc ++ v) ((j :: acc) ++ v) :=
      (heapPush_perm j acc).append_right v
    have h3 : List.Perm ((j :: acc) ++ v) (acc ++ j :: v) :=
      List.perm_middle.symm
    exact (h1.trans h2).trans h3

/-! ### Find-by-id helpers -/

theorem removeFirst_of_not_mem {id : Nat} :
    ∀ {l : List Job}, (∀ j ∈ l, j.id ≠ id) → removeFirst id l = none := by
  intro l
  induction l with
  | nil => intro _; rfl
  | cons x xs ih =>
    intro h
    unfold removeFirst
    rw [if_neg, ih fun j hj => h j (List.mem_cons_of_mem x hj)]
    simpa using h x (by simp)

theorem removeFirst_decomp {id : Nat} {x : Job} (hx : x.id = id) :
    ∀ {l₁ : List Job} (l₂ : List Job), (∀ j ∈ l₁, j.id ≠ id) →
      removeFirst id (l₁ ++ x :: l₂) = some (x, l₁ ++ l₂) := by
  intro l₁
  induction l₁ with
  | nil =>
    intro l₂ _
    rw [List.nil_append]
    simp only [removeFirst]
    rw [if_pos (by simpa using hx)]
    rfl
  | cons y ys ih =>
    intro l₂ h
    rw [List.cons_append]
    simp only [removeFirst]
    rw [if_neg (by simpa using h y (by simp))]
    rw [ih l₂ fun j hj => h j (List.mem_cons_of_mem y hj)]
    rfl

theorem setStatusFirst_of_not_mem {id : Nat} {s : Status} :
    ∀ {l : List Job}, (∀ j ∈ l, j.id ≠ id) → setStatusFirst id s l = none := by
  intro l
  induction l with
  | nil => intro _; rfl
  | cons x xs ih =>
    intro h
    unfold setStatusFirst
    rw [if_neg, ih fun j hj => h j (List.mem_cons_of_mem x hj)]
    · rfl
    · simpa using h x (by simp)

theorem setStatusFirst_decomp {id : Nat} {s : Status} {x : Job}
    (hx : x.id = id) :
    ∀ {l₁ : List Job} (l₂ : List Job), (∀ j ∈ l₁, j.id ≠ id) →
      setStatusFirst id s (l₁ ++ x :: l₂) =
        some (l₁ ++ { x with status := s } :: l₂) := by
  intro l₁
  induction l₁ with
  | nil =>
    intro l₂ _
    rw [List.nil_append]
    simp only [setStatusFirst]
    rw [if_pos (by simpa using hx)]
    simp
  | cons y ys ih =>
    intro l₂ h
    rw [List.cons_append]
    simp only [setStatusFirst]
    rw [if_neg (by simpa using h y (by simp))]
    rw [ih l₂ fun j hj => h j (List.mem_cons_of_mem y hj)]
    rfl

/-! ### Iterated `fail_and_retry` -/

theorem iterFail_succ_right (n : Nat) :
    ∀ j : Job, iterFail j (n + 1) = (iterFail j n).fail_and_retry.1 := by
  induction n with
  | zero => intro j; rfl
  | succ n ih =>
    intro j
    show iterFail j.fail_and_retry.1 (n + 1) = _
    rw [ih j.fail_and_retry.1]
    rfl

theorem fail_and_retry_of_lt {j : Job} (h : j.retry_count < j.max_retries) :
    j.fail_and_retry =
      ({ j with retry_count := j.retry_count + 1, status := .Pending }, true) := by
  unfold Job.fail_and_retry
  rw [if_pos h]

theorem fail_and_retry_of_ge {j : Job} (h : j.max_retries ≤ j.retry_count) :
    j.fail_and_retry = ({ j with status := .Failed }, false) := by
  unfold Job.fail_and_retry
  rw [if_neg (by omega)]

theorem iterFail_progress (k : Nat) :
    ∀ j : Job, j.retry_count + k ≤ j.max_retries →
      iterFail j k =
        { j with retry_count := j.retry_count + k,
                 status := if k = 0 then j.status else .Pending } := by
  induction k with
  | zero =>
    intro j _
    show j = _
    simp
  | succ k ih =>
    intro j h
    show iterFail j.fail_and_retry.1 k = _
    rw [fail_and_retry_of_lt (by omega)]
    rw [ih _ (by simp; omega)]
    simp
    omega

/-! ### Concrete jobs used in scenarios and witnesses -/

/-- A baseline pending job for concrete instantiations. -/
def baseJob : Job :=
  { id := 0, execution_time := 0, priority := 0, description := "d",
    function := "f", status := .Pending, max_retries := 0, retry_count := 0 }

/-- The "low" job of the C2 scenario: due at `t`, priority 1. -/
def lowJob (t : Int) : Job :=
  { baseJob with id := 1, execution_time := t, priority := 1,
                 description := "low" }

/-- The "high" job of the C2 scenario: due at `t`, priority 9. -/
def highJob (t : Int) : Job :=
  { baseJob with id := 2, execution_time := t, priority := 9,
                 description := "high" }

/-- The "later" job of the C2 scenario: due at `t + 5`, priority 1. -/
def laterJob (t : Int) : Job :=
  { baseJob with id := 3, execution_time := t + 5, priority := 1,
                 description := "later" }

/-! ### Claims -/

/-- Claim C1: for every sequence of jobs inserted via `push`, repeated
`pop` (pop-earliest) returns the jobs in non-decreasing `execution_time`,
and among jobs with equal `execution_time`, in non-increasing
`priority`. -/
theorem pop_earliest_order (js : List Job) :
    (popAll (pushAll js)).Pairwise (fun a b =>
      a.execution_time ≤ b.execution_time ∧
        (a.execution_time = b.execution_time → b.priority ≤ a.priority)) := by
  rw [popAll_eq]
  exact (pushAll_pairwise js).imp fun h => Job.heapLE_iff.mp h

/-- Claim C2: for every sorted store state and every time `t`,
`pop_ready t` removes and returns exactly the stored jobs with
`execution_time ≤ t`, in store order, and leaves exactly the jobs with
`execution_time > t`; in particular, for jobs due at `t, t, t + 5` with
priorities `1, 9, 1`, `pop_ready t` returns the priority-9 job then the
priority-1 job, and `pop_ready (t + 5)` afterwards returns the remaining
job. -/
theorem pop_ready_exact (q : QueueManager) (t : Int)
    (hq : q.heap.Pairwise Job.heapLE) :
    ((q.pop_ready t).1 ++ (q.pop_ready t).2.heap = q.heap ∧
      (∀ j ∈ (q.pop_ready t).1, j.execution_time ≤ t) ∧
      (∀ j ∈ (q.pop_ready t).2.heap, t < j.execution_time) ∧
      (q.pop_ready t).1.Pairwise (fun a b =>
        a.execution_time ≤ b.execution_time ∧
          (a.execution_time = b.execution_time → b.priority ≤ a.priority))) ∧
    (∀ t₀ : Int,
      ((pushAll [lowJob t₀, highJob t₀, laterJob t₀]).pop_ready t₀).1 =
          [highJob t₀, lowJob t₀] ∧
        (((pushAll [lowJob t₀, highJob t₀, laterJob t₀]).pop_ready
            t₀).2.pop_ready (t₀ + 5)).1 = [laterJob t₀]) := by
  constructor
  · refine ⟨popReadyList_append t q.heap, popReadyList_fst_le t q.heap,
      popReadyList_snd_gt t hq, ?_⟩
    exact (popReadyList_fst_pairwise t hq).imp fun h => Job.heapLE_iff.mp h
  · intro t₀
    simp [pushAll, QueueManager.push, QueueManager.new, heapPush, Job.cmp,
      intCmp, natCmp, lowJob, highJob, laterJob, baseJob, Ordering.then,
      QueueManager.pop_ready, popReadyList]

/-- Witness for C2 at a concrete store and time. -/
theorem pop_ready_exact_witness :
    ((⟨[lowJob 0]⟩ : QueueManager).pop_ready 0).1 ++
        ((⟨[lowJob 0]⟩ : QueueManager).pop_ready 0).2.heap =
      (⟨[lowJob 0]⟩ : QueueManager).heap :=
  (pop_ready_exact ⟨[lowJob 0]⟩ 0 (by simp)).1.1

/-- A store holding jobs due at 10 and 20 (pop order: 10 first). -/
def snapQueue : QueueManager :=
  pushAll [{ baseJob with id := 1, execution_time := 10 },
           { baseJob with id := 2, execution_time := 20 }]

/-- Claim C3 counterexample: on a store holding jobs due at 10 and 20,
`snapshot` returns the job due at 20 first — not store order
(non-decreasing `execution_time`): `Vec::sort` sorts ascending by the
`Ord` that was reversed for the max-heap. -/
theorem snapshot_claim_counterexample :
    ¬ (QueueManager.snapshot snapQueue).1.Pairwise (fun a b =>
      a.execution_time ≤ b.execution_time ∧
        (a.execution_time = b.execution_time → b.priority ≤ a.priority)) := by
  decide

/-- Claim C3 (amended): `snapshot` returns all stored jobs sorted
ascending by the `Job` `Ord` — non-increasing `execution_time`, ties in
non-decreasing `priority`, the reverse of the pop order — and the
store's contents are unchanged (as a multiset) after the call. -/
theorem snapshot_reverse_order (q : QueueManager) :
    List.Perm (QueueManager.snapshot q).1 q.heap ∧
    (QueueManager.snapshot q).1.Pairwise (fun a b =>
      b.execution_time ≤ a.execution_time ∧
        (a.execution_time = b.execution_time → a.priority ≤ b.priority)) ∧
    List.Perm (QueueManager.snapshot q).2.heap q.heap := by
  refine ⟨sortAsc_perm q.heap,
    (sortAsc_pairwise q.heap).imp fun h => Job.ascLE_iff.mp h, ?_⟩
  have h1 := foldlPush_perm (sortAsc q.heap) []
  simpa using h1.trans (sortAsc_perm q.heap)

/-- Claim C4: `fail_and_retry` increments `retry_count` and resets the
status to `Pending` (returning `true`) while `retry_count < max_retries`,
and otherwise marks the job `Failed` leaving `retry_count` unchanged
(returning `false`); `retry_count ≤ max_retries` is preserved, and with
`max_retries = 1` the first call yields `retry_count = 1` and `Pending`,
the second `Failed` with `retry_count` still 1. -/
theorem fail_and_retry_spec (j : Job) :
    (j.retry_count < j.max_retries →
      j.fail_and_retry =
        ({ j with retry_count := j.retry_count + 1, status := .Pending },
          true)) ∧
    (j.max_retries ≤ j.retry_count →
      j.fail_and_retry = ({ j with status := .Failed }, false)) ∧
    (j.retry_count ≤ j.max_retries →
      j.fail_and_retry.1.retry_count ≤ j.fail_and_retry.1.max_retries) ∧
    (j.max_retries = 1 → j.retry_count = 0 → j.status = .Pending →
      j.fail_and_retry.1.retry_count = 1 ∧
        j.fail_and_retry.1.status = .Pending ∧
        j.fail_and_retry.1.fail_and_retry.1.status = .Failed ∧
        j.fail_and_retry.1.fail_and_retry.1.retry_count = 1 ∧
        j.fail_and_retry.2 = true ∧
        j.fail_and_retry.1.fail_and_retry.2 = false) := by
  refine ⟨fun h => fail_and_retry_of_lt h, fun h => fail_and_retry_of_ge h,
    fun h => ?_, fun h1 h0 _ => ?_⟩
  · by_cases hlt : j.retry_count < j.max_retries
    · rw [fail_and_retry_of_lt hlt]
      simpa using hlt
    · rw [fail_and_retry_of_ge (by omega)]
      simpa using h
  · rw [fail_and_retry_of_lt (by omega)]
    simp
    rw [fail_and_retry_of_ge (by simp; omega)]
    simp [h0]

/-- Witness for C4: the `max_retries = 1` scenario at a concrete job. -/
theorem fail_and_retry_spec_witness :
    ({ baseJob with max_retries := 1 } : Job).fail_and_retry.1.retry_count
        = 1 ∧
      ({ baseJob with max_retries := 1 } : Job).fail_and_retry.1.status
        = Status.Pending ∧
      ({ baseJob with max_retries :=
        1 } : Job).fail_and_retry.1.fail_and_retry.1.status = Status.Failed ∧
      ({ baseJob with max_retries :=
        1 } : Job).fail_and_retry.1.fail_and_retry.1.retry_count = 1 ∧
      ({ baseJob with max_retries := 1 } : Job).fail_and_retry.2 = true ∧
      ({ baseJob with max_retries :=
        1 } : Job).fail_and_retry.1.fail_and_retry.2 = false :=
  (fail_and_retry_spec { baseJob with max_retries := 1 }).2.2.2 rfl rfl rfl

/-- A pending job with `max_retries = 1` and an untouched retry count. -/
def retryJob : Job := { baseJob with max_retries := 1 }

/-- Claim C5 counterexample: on a fresh job with `max_retries = 1`,
applying `fail_and_retry` exactly `max_retries` (= 1) times leaves the
job `Pending`, not `Failed`: the call that exhausts the budget is the
`max_retries + 1`-st. -/
theorem iter_fail_claim_counterexample :
    (iterFail retryJob retryJob.max_retries).status ≠ Status.Failed := by
  decide

/-- Claim C5 (amended): for a job constructed with status `Pending` and
`retry_count = 0`, applying `fail_and_retry` at most `max_retries` times
leaves the status `Pending` with `retry_count` incremented by one on each
call, and applying it `max_retries + 1` times in a row ends with the job
`Failed`. -/
theorem iter_fail_budget (j : Job) (hs : j.status = Status.Pending)
    (hr : j.retry_count = 0) :
    (∀ k : Nat, k ≤ j.max_retries →
      (iterFail j k).status = Status.Pending ∧
        (iterFail j k).retry_count = k) ∧
    ((iterFail j (j.max_retries + 1)).status = Status.Failed ∧
      (iterFail j (j.max_retries + 1)).retry_count = j.max_retries) := by
  constructor
  · intro k hk
    rw [iterFail_progress k j (by omega)]
    rcases Nat.eq_zero_or_pos k with rfl | hpos
    · simp [hs, hr]
    · rw [if_neg (by omega)]
      simp [hr]
  · rw [iterFail_succ_right, iterFail_progress j.max_retries j (by omega)]
    rw [fail_and_retry_of_ge (by simp)]
    simp [hr]

/-- Witness for C5 (amended) at a concrete job. -/
theorem iter_fail_budget_witness :
    (iterFail retryJob (retryJob.max_retries + 1)).status = Status.Failed ∧
      (iterFail retryJob (retryJob.max_retries + 1)).retry_count =
        retryJob.max_retries :=
  (iter_fail_budget retryJob rfl rfl).2

/-- Claim C6: `Job::new` with `execution_time` strictly before the
current time always returns an error and produces no job; with
`execution_time ≥ now` it always succeeds, and the returned job has
status `Pending` and `retry_count = 0`. -/
theorem job_new_validation (now : Int) (id : Nat) (execution_time : Int)
    (priority : Nat) (description function : String) (max_retries : Nat) :
    (execution_time < now →
      Job.new now id execution_time priority description function
          max_retries =
        .error s!"execution_time {execution_time} is in the past") ∧
    (now ≤ execution_time →
      Job.new now id execution_time priority description function
          max_retries =
        .ok { id := id, execution_time := execution_time,
              priority := priority, description := description,
              function := function, status := .Pending,
              max_retries := max_retries, retry_count := 0 }) := by
  constructor
  · intro h
    unfold Job.new
    rw [if_pos h]
  · intro h
    unfold Job.new
    rw [if_neg (by omega)]

/-- Witness for C6: both validation branches at concrete inputs. -/
theorem job_new_validation_witness :
    Job.new 5 0 3 0 "d" "f" 0 =
        .error "execution_time 3 is in the past" ∧
      Job.new 5 0 7 0 "d" "f" 0 =
        .ok { id := 0, execution_time := 7, priority := 0,
              description := "d", function := "f", status := .Pending,
              max_retries := 0, retry_count := 0 } :=
  ⟨(job_new_validation 5 0 3 0 "d" "f" 0).1 (by omega),
    (job_new_validation 5 0 7 0 "d" "f" 0).2 (by omega)⟩

/-- A pending job whose function name is not in any registry. -/
def missingFnJob : Job :=
  { baseJob with id := 7, function := "missing_func", max_retries := 3 }

/-- Claim C7 (code bug): in `src/worker.rs`, `run_job` takes the job by
shared reference and, for an unregistered name, only logs an error: the
job comes back unchanged — still `Pending`, `retry_count` 0 — so
`fail_and_retry` is never invoked; and for a registered name the
callable runs with no `Pending→Running→Success` transition either.  The
crate's own tests and `main.rs` call `run_job(&mut job, log_tx)`, a
signature this `worker.rs` does not have. -/
theorem run_job_no_transitions :
    Worker.new.run_job missingFnJob = (missingFnJob, false) ∧
      missingFnJob.status = Status.Pending ∧
      missingFnJob.retry_count = 0 ∧
      (Worker.new.register "missing_func").run_job missingFnJob =
        (missingFnJob, true) := by
  decide

/-- Claim C8: `remove id` on a present id removes exactly the job with
that id, returns it, and leaves the store's length decremented by one
with the remaining jobs unchanged; on an absent id it returns `none` and
the store is unchanged. -/
theorem remove_spec (q : QueueManager) (id : Nat)
    (hq : q.heap.Pairwise Job.heapLE) :
    ((∀ j ∈ q.heap, j.id ≠ id) → q.remove id = (none, q)) ∧
    (∀ l₁ (x : Job) l₂, q.heap = l₁ ++ x :: l₂ → x.id = id →
      (∀ j ∈ l₁, j.id ≠ id) →
      q.remove id = (some x, ⟨l₁ ++ l₂⟩) ∧
        (l₁ ++ l₂).length + 1 = q.heap.length) := by
  constructor
  · intro h
    unfold QueueManager.remove
    rw [removeFirst_of_not_mem h, heapify_of_pairwise hq]
  · intro l₁ x l₂ hdec hx h₁
    have hsub : (l₁ ++ l₂).Sublist (l₁ ++ x :: l₂) :=
      (List.sublist_cons_self x l₂).append_left l₁
    have hpw : (l₁ ++ l₂).Pairwise Job.heapLE := by
      rw [hdec] at hq
      exact hq.sublist hsub
    unfold QueueManager.remove
    rw [hdec, removeFirst_decomp hx l₂ h₁]
    simp [heapify_of_pairwise hpw]
    omega

/-- Witness for C8: removing an absent id from a singleton store. -/
theorem remove_spec_witness :
    (⟨[baseJob]⟩ : QueueManager).remove 99 =
      (none, (⟨[baseJob]⟩ : QueueManager)) :=
  (remove_spec ⟨[baseJob]⟩ 99 (by simp)).1 (by decide)

/-- Claim C9: `load_jobs` returns an empty job list, not an error, both
when the backing file is missing/unreadable and when its contents fail
to parse. -/
theorem load_jobs_defaults_empty (e : String)
    (parse : String → Except String (List Job)) :
    PersistenceManager.load_jobs (.error e) parse = [] ∧
    (∀ d e', parse d = .error e' →
      PersistenceManager.load_jobs (.ok d) parse = []) := by
  constructor
  · rfl
  · intro d e' h
    show (match parse d with
      | Except.error _ => []
      | Except.ok jobs => jobs) = []
    rw [h]

/-- Witness for C9: a missing file and a malformed file, concretely. -/
theorem load_jobs_defaults_empty_witness :
    PersistenceManager.load_jobs (.error "no such file")
        (fun _ => .error "parse error") = [] ∧
      PersistenceManager.load_jobs (.ok "garbage")
        (fun _ => .error "parse error") = [] :=
  ⟨(load_jobs_defaults_empty "no such file" (fun _ => .error "parse error")).1,
    (load_jobs_defaults_empty "no such file"
      (fun _ => .error "parse error")).2 "garbage" "parse error" rfl⟩

theorem heapLE_status_left {x y : Job} {s : Status} (h : x.heapLE y) :
    Job.heapLE { x with status := s } y := by
  rw [Job.heapLE_iff] at *
  exact h

theorem heapLE_status_right {x y : Job} {s : Status} (h : y.heapLE x) :
    Job.heapLE y { x with status := s } := by
  rw [Job.heapLE_iff] at *
  exact h

theorem pairwise_set_status {l₁ l₂ : List Job} {x : Job} (s : Status)
    (h : (l₁ ++ x :: l₂).Pairwise Job.heapLE) :
    (l₁ ++ { x with status := s } :: l₂).Pairwise Job.heapLE := by
  rw [List.pairwise_append] at h ⊢
  obtain ⟨p₁, p₂, hrel⟩ := h
  rw [List.pairwise_cons] at p₂
  obtain ⟨hx, p₂'⟩ := p₂
  refine ⟨p₁, ?_, ?_⟩
  · rw [List.pairwise_cons]
    exact ⟨fun y hy => heapLE_status_left (hx y hy), p₂'⟩
  · intro a ha b hb
    rcases List.mem_cons.mp hb with rfl | hb
    · exact heapLE_status_right (hrel a ha x (by simp))
    · exact hrel a ha b (by simp [hb])

/-- Claim C10: `update_status id s` is a pure status-field update: when a
job with that id is stored, only that job's status changes — its other
fields and every other job are untouched — and the call returns `true`;
when no stored job has that id the store is unchanged and the call
returns `false`. -/
theorem update_status_frame (q : QueueManager) (id : Nat) (s : Status)
    (hq : q.heap.Pairwise Job.heapLE) :
    ((∀ j ∈ q.heap, j.id ≠ id) → q.update_status id s = (false, q)) ∧
    (∀ l₁ (x : Job) l₂, q.heap = l₁ ++ x :: l₂ → x.id = id →
      (∀ j ∈ l₁, j.id ≠ id) →
      q.update_status id s =
        (true, ⟨l₁ ++ { x with status := s } :: l₂⟩)) := by
  constructor
  · intro h
    unfold QueueManager.update_status
    rw [setStatusFirst_of_not_mem h, heapify_of_pairwise hq]
  · intro l₁ x l₂ hdec hx h₁
    have hpw : (l₁ ++ { x with status := s } :: l₂).Pairwise Job.heapLE := by
      rw [hdec] at hq
      exact pairwise_set_status s hq
    unfold QueueManager.update_status
    rw [hdec, setStatusFirst_decomp hx l₂ h₁]
    simp [heapify_of_pairwise hpw]

/-- Witness for C10: updating an absent id on a singleton store. -/
theorem update_status_frame_witness :
    (⟨[baseJob]⟩ : QueueManager).update_status 99 Status.Running =
      (false, (⟨[baseJob]⟩ : QueueManager)) :=
  (update_status_frame ⟨[baseJob]⟩ 99 Status.Running (by simp)).1 (by decide)
